import Mathlib

/-!
# Verification of the b58uuid fixed-width Base58 codec

Shallow embedding of `src/base58.ts`: `encode` turns a 16-byte buffer
into exactly 22 Base58 characters, `decode` parses exactly 22 Base58
characters back into a 16-byte buffer with per-step overflow checking.
Byte buffers are `List Nat` with entries below 256 (the `Uint8Array`
typing of the source); big integers are `Nat` (the source uses
`BigInt`); thrown errors are an `Except` with one constructor per
conceptual failure kind.
-/

namespace B58

/-- The Bitcoin Base58 alphabet, from the source:
`'123456789ABCDEFGHJKLMNPQRSTUVWXYZabcdefghijkmnopqrstuvwxyz'`. -/
def ALPHABET : String := "123456789ABCDEFGHJKLMNPQRSTUVWXYZabcdefghijkmnopqrstuvwxyz"

/-- The 256-entry reverse lookup table: filled with the sentinel 255,
then `REVERSE_ALPHABET[ALPHABET.charCodeAt(i)] = i` for each index. -/
def REVERSE_ALPHABET : List Nat :=
  ALPHABET.data.enum.foldl (fun t p => t.set p.2.toNat p.1) (List.replicate 256 255)

/-- `BASE58 = 58n` from the source. -/
def BASE58 : Nat := 58

/-- `MAX_UUID = 0xffffffffffffffffffffffffffffffffn`, i.e. `2^128 - 1`. -/
def MAX_UUID : Nat := 2 ^ 128 - 1

/-- The conceptual failure kinds of the codec (spec §7): wrong
byte/character count, symbol outside the alphabet (with offending
position and character; this covers both the `charCode > 255` branch
and the `digit === 255` branch of the source, each of which reports the
position and the character), empty input, and decoded value exceeding
`2^128 - 1`. -/
inductive B58Error : Type where
  | invalidLength (got : Nat) : B58Error
  | invalidFormat : B58Error
  | invalidCharacter (pos : Nat) (c : Char) : B58Error
  | overflow : B58Error
deriving DecidableEq, Repr

/-- The byte-accumulation loop of `encode`:
`num = (num << 8n) | BigInt(bytes[i])` over the 16 bytes. -/
def bytesToNum (data : List Nat) : Nat :=
  data.foldl (fun num b => (num <<< 8) ||| b) 0

/-- The `while (num > 0) { result.push(num % 58); num = num / 58 }`
loop of `encode`, fuel-indexed to stay structural; the fuel only ever
decreases the iteration count, never changes a produced digit. -/
def natToDigitsLEAux : Nat → Nat → List Nat
  | 0, _ => []
  | fuel + 1, num =>
      if num = 0 then [] else num % BASE58 :: natToDigitsLEAux fuel (num / BASE58)

/-- The little-endian Base58 digits of `num` (empty for zero), as
produced by the source's division loop; `num` itself is enough fuel
because the loop value strictly decreases. -/
def natToDigitsLE (num : Nat) : List Nat :=
  natToDigitsLEAux num num

/-- `ALPHABET[i]`: the symbol of digit value `i` (the default is never
reached, every produced digit is below 58). -/
def alphaChar (i : Nat) : Char :=
  ALPHABET.data.getD i ' '

/-- The most-significant-first, zero-left-padded 22 digits of a value:
steps 3 and 4 of `encode` (reverse, then `unshift(0)` until length 22). -/
def encodeDigits (num : Nat) : List Nat :=
  let digits := (natToDigitsLE num).reverse
  List.replicate (22 - digits.length) 0 ++ digits

/-- `encode`: reject a buffer that is not 16 bytes, convert to a
big integer, take base-58 digits, reverse to most-significant-first,
left-pad with zero digits to width 22, map through the alphabet. -/
def encode (data : List Nat) : Except B58Error String :=
  if data.length ≠ 16 then
    .error (.invalidLength data.length)
  else
    .ok ⟨(encodeDigits (bytesToNum data)).map alphaChar⟩

/-- The character loop of `decode`: for each character, reject a code
above 255, look the code up in `REVERSE_ALPHABET`, reject the sentinel
255, multiply-add into the accumulator and fail with overflow the
moment the accumulator exceeds `MAX_UUID`.  `i` is the position
reported in character errors. -/
def decodeLoop : List Char → Nat → Nat → Except B58Error Nat
  | [], _, num => .ok num
  | c :: rest, i, num =>
      if c.toNat > 255 then .error (.invalidCharacter i c)
      else
        let digit := REVERSE_ALPHABET.getD c.toNat 255
        if digit = 255 then .error (.invalidCharacter i c)
        else
          let num2 := num * BASE58 + digit
          if num2 > MAX_UUID then .error .overflow
          else decodeLoop rest (i + 1) num2

/-- The byte-emission loop of `decode`: sixteen times, prepend
`num & 0xFF` and shift `num` right by 8; the result is big-endian. -/
def intToBytesAux : Nat → Nat → List Nat
  | 0, _ => []
  | k + 1, num => intToBytesAux k (num >>> 8) ++ [num &&& 0xFF]

/-- `integerToBytes` of spec §4.1: the 16-byte big-endian buffer of a
128-bit value, as built by the tail of the source's `decode`. -/
def integerToBytes (num : Nat) : List Nat :=
  intToBytesAux 16 num

/-- `decode`: empty check, length-22 check, character/overflow loop,
then conversion of the final integer to a 16-byte big-endian buffer. -/
def decode (b58 : String) : Except B58Error (List Nat) :=
  if b58.data.length = 0 then .error .invalidFormat
  else if b58.data.length ≠ 22 then .error (.invalidLength b58.data.length)
  else
    match decodeLoop b58.data 0 0 with
    | .error e => .error e
    | .ok num => .ok (integerToBytes num)

/-- A character the decode loop accepts: code at most 255 and not
mapped to the sentinel by the reverse table. -/
def isValidChar (c : Char) : Bool :=
  decide (c.toNat ≤ 255) && decide (REVERSE_ALPHABET.getD c.toNat 255 ≠ 255)

/-- The digit value the decode loop assigns to an accepted character. -/
def charDigit (c : Char) : Nat :=
  REVERSE_ALPHABET.getD c.toNat 255

/-- Most-significant-first value of a digit list continued from an
accumulator: the `acc = acc * 58 + digit` recurrence of spec §4.1. -/
def accVal (acc : Nat) (ds : List Nat) : Nat :=
  ds.foldl (fun x d => x * BASE58 + d) acc

end B58

namespace B58

/-! ## The division loop of `encode` -/

theorem natToDigitsLEAux_congr : ∀ f g n, n ≤ f → n ≤ g →
    natToDigitsLEAux f n = natToDigitsLEAux g n := by
  intro f
  induction f with
  | zero =>
    intro g n hf _
    have hn : n = 0 := Nat.le_zero.mp hf
    subst hn
    cases g <;> simp [natToDigitsLEAux]
  | succ f ih =>
    intro g n hf hg
    by_cases h0 : n = 0
    · subst h0
      cases g <;> simp [natToDigitsLEAux]
    · obtain ⟨g, rfl⟩ : ∃ m, g = m + 1 := ⟨g - 1, by omega⟩
      simp only [natToDigitsLEAux, if_neg h0]
      have hdiv : n / BASE58 < n :=
        Nat.div_lt_self (Nat.pos_of_ne_zero h0) (by decide)
      exact congrArg _ (ih g (n / BASE58) (by omega) (by omega))

theorem natToDigitsLE_eq (n : Nat) :
    natToDigitsLE n =
      if n = 0 then [] else n % BASE58 :: natToDigitsLE (n / BASE58) := by
  by_cases h0 : n = 0
  · subst h0
    simp [natToDigitsLE, natToDigitsLEAux]
  · obtain ⟨m, rfl⟩ : ∃ m, n = m + 1 := ⟨n - 1, by omega⟩
    rw [if_neg h0]
    show natToDigitsLEAux (m + 1) (m + 1) = _
    simp only [natToDigitsLEAux, if_neg h0]
    have hdiv : (m + 1) / BASE58 < m + 1 :=
      Nat.div_lt_self (Nat.pos_of_ne_zero h0) (by decide)
    exact congrArg _ (natToDigitsLEAux_congr m _ _ (by omega) (le_refl _))

theorem natToDigitsLE_digit_lt (n : Nat) : ∀ d ∈ natToDigitsLE n, d < BASE58 := by
  induction n using Nat.strong_induction_on with
  | _ n ih =>
    intro d hd
    rw [natToDigitsLE_eq] at hd
    by_cases h0 : n = 0
    · simp [h0] at hd
    · rw [if_neg h0, List.mem_cons] at hd
      rcases hd with rfl | hd
      · exact Nat.mod_lt _ (by decide)
      · exact ih (n / BASE58)
          (Nat.div_lt_self (Nat.pos_of_ne_zero h0) (by decide)) d hd

theorem natToDigitsLE_length_le (n k : Nat) (h : n < BASE58 ^ k) :
    (natToDigitsLE n).length ≤ k := by
  induction n using Nat.strong_induction_on generalizing k with
  | _ n ih =>
    rw [natToDigitsLE_eq]
    by_cases h0 : n = 0
    · simp [h0]
    · rw [if_neg h0]
      cases k with
      | zero =>
        rw [pow_zero] at h
        omega
      | succ k =>
        rw [List.length_cons, Nat.succ_le_succ_iff]
        refine ih (n / BASE58)
          (Nat.div_lt_self (Nat.pos_of_ne_zero h0) (by decide)) k ?_
        rw [Nat.div_lt_iff_lt_mul (by decide : 0 < BASE58)]
        calc n < BASE58 ^ (k + 1) := h
          _ = BASE58 ^ k * BASE58 := pow_succ _ _

/-! ## The value of a digit sequence -/

theorem accVal_nil (a : Nat) : accVal a [] = a := rfl

theorem accVal_cons (a d : Nat) (ds : List Nat) :
    accVal a (d :: ds) = accVal (a * BASE58 + d) ds := rfl

theorem accVal_append (a : Nat) (xs ys : List Nat) :
    accVal a (xs ++ ys) = accVal (accVal a xs) ys := by
  simp [accVal, List.foldl_append]

theorem accVal_eq (a : Nat) (ds : List Nat) :
    accVal a ds = a * BASE58 ^ ds.length + accVal 0 ds := by
  induction ds generalizing a with
  | nil => simp [accVal]
  | cons d ds ih =>
    rw [accVal_cons, accVal_cons, ih (a * BASE58 + d), ih (0 * BASE58 + d),
      List.length_cons, pow_succ]
    ring

theorem accVal_lt (ds : List Nat) (h : ∀ d ∈ ds, d < BASE58) :
    accVal 0 ds < BASE58 ^ ds.length := by
  induction ds with
  | nil => simp [accVal]
  | cons d ds ih =>
    have hd : d < BASE58 := h d (List.mem_cons_self _ _)
    have hr := ih fun x hx => h x (List.mem_cons_of_mem _ hx)
    rw [accVal_cons, accVal_eq, List.length_cons]
    calc (0 * BASE58 + d) * BASE58 ^ ds.length + accVal 0 ds
        = d * BASE58 ^ ds.length + accVal 0 ds := by ring
      _ < (d + 1) * BASE58 ^ ds.length := by
          rw [Nat.succ_mul]
          omega
      _ ≤ BASE58 * BASE58 ^ ds.length := Nat.mul_le_mul_right _ hd
      _ = BASE58 ^ (ds.length + 1) := by rw [pow_succ]; ring

theorem accVal_replicate_zero (a k : Nat) :
    accVal a (List.replicate k 0) = a * BASE58 ^ k := by
  induction k generalizing a with
  | zero => simp [accVal]
  | succ k ih =>
    rw [List.replicate_succ, accVal_cons, ih, pow_succ]
    ring

theorem accVal_reverse_digits (n : Nat) :
    accVal 0 (natToDigitsLE n).reverse = n := by
  induction n using Nat.strong_induction_on with
  | _ n ih =>
    rw [natToDigitsLE_eq]
    by_cases h0 : n = 0
    · simp [h0, accVal]
    · rw [if_neg h0, List.reverse_cons, accVal_append,
        ih (n / BASE58) (Nat.div_lt_self (Nat.pos_of_ne_zero h0) (by decide))]
      show n / 58 * 58 + n % 58 = n
      omega

/-! ## Bytes and the 128-bit value -/

theorem shift_or_eq (n b : Nat) (hb : b < 2 ^ 8) :
    (n <<< 8) ||| b = n * 2 ^ 8 + b := by
  rw [Nat.shiftLeft_eq, Nat.mul_comm n (2 ^ 8), ← Nat.mul_add_lt_is_or hb n,
    Nat.mul_comm]

theorem and_255_eq (n : Nat) : n &&& 0xFF = n % 2 ^ 8 := by
  have h : (0xFF : Nat) = 2 ^ 8 - 1 := by norm_num
  rw [h, Nat.and_pow_two_sub_one_eq_mod]

theorem intToBytesAux_length (k n : Nat) : (intToBytesAux k n).length = k := by
  induction k generalizing n with
  | zero => rfl
  | succ k ih => simp [intToBytesAux, ih]

theorem intToBytesAux_mem_lt (k n : Nat) : ∀ b ∈ intToBytesAux k n, b < 256 := by
  induction k generalizing n with
  | zero => simp [intToBytesAux]
  | succ k ih =>
    intro b hb
    simp only [intToBytesAux, List.mem_append, List.mem_singleton] at hb
    rcases hb with hb | rfl
    · exact ih _ b hb
    · rw [and_255_eq]
      exact Nat.mod_lt _ (by norm_num)

theorem foldl_bytes_intToBytesAux (k : Nat) : ∀ n a,
    List.foldl (fun num b => (num <<< 8) ||| b) a (intToBytesAux k n)
      = a * 2 ^ (8 * k) + n % 2 ^ (8 * k) := by
  induction k with
  | zero =>
    intro n a
    simp [intToBytesAux]
    omega
  | succ k ih =>
    intro n a
    rw [show intToBytesAux (k + 1) n
        = intToBytesAux k (n >>> 8) ++ [n &&& 0xFF] from rfl,
      List.foldl_append, ih (n >>> 8) a]
    simp only [List.foldl_cons, List.foldl_nil]
    rw [shift_or_eq _ _ (by rw [and_255_eq]; exact Nat.mod_lt _ (by norm_num)),
      and_255_eq, Nat.shiftRight_eq_div_pow]
    have hmul : n % (2 ^ 8 * 2 ^ (8 * k))
        = n % 2 ^ 8 + 2 ^ 8 * (n / 2 ^ 8 % 2 ^ (8 * k)) := Nat.mod_mul
    rw [show 8 * (k + 1) = 8 + 8 * k by ring, pow_add, hmul]
    ring

theorem bytesToNum_integerToBytes (n : Nat) (h : n < 2 ^ 128) :
    bytesToNum (integerToBytes n) = n := by
  have hfold := foldl_bytes_intToBytesAux 16 n 0
  rw [show (8 * 16 : Nat) = 128 from rfl] at hfold
  rw [bytesToNum, integerToBytes, hfold, Nat.zero_mul, Nat.zero_add,
    Nat.mod_eq_of_lt h]

theorem foldl_bytes_lt (l : List Nat) : ∀ a, (∀ b ∈ l, b < 256) →
    List.foldl (fun num b => (num <<< 8) ||| b) a l
      < (a + 1) * 2 ^ (8 * l.length) := by
  induction l with
  | nil =>
    intro a _
    simp
  | cons b l ih =>
    intro a h
    have hb : b < 256 := h b (List.mem_cons_self _ _)
    rw [List.foldl_cons, shift_or_eq a b (by norm_num; omega)]
    have hrec := ih (a * 2 ^ 8 + b) fun x hx => h x (List.mem_cons_of_mem _ hx)
    calc List.foldl (fun num b => (num <<< 8) ||| b) (a * 2 ^ 8 + b) l
        < (a * 2 ^ 8 + b + 1) * 2 ^ (8 * l.length) := hrec
      _ ≤ ((a + 1) * 2 ^ 8) * 2 ^ (8 * l.length) := by
          apply Nat.mul_le_mul_right
          have : (2 : Nat) ^ 8 = 256 := by norm_num
          omega
      _ = (a + 1) * 2 ^ (8 * (b :: l).length) := by
          rw [List.length_cons, show 8 * (l.length + 1) = 8 + 8 * l.length by ring,
            pow_add]
          ring

theorem bytesToNum_lt (data : List Nat) (h16 : data.length = 16)
    (hb : ∀ b ∈ data, b < 256) : bytesToNum data < 2 ^ 128 := by
  have := foldl_bytes_lt data 0 hb
  rw [h16, Nat.one_mul, show (8 * 16 : Nat) = 128 from rfl] at this
  exact this

/-! ## The padded digit string of `encode` -/

theorem encodeDigits_length (num : Nat) (h : num < 2 ^ 128) :
    (encodeDigits num).length = 22 := by
  have hlen : (natToDigitsLE num).length ≤ 22 := by
    apply natToDigitsLE_length_le
    calc num < 2 ^ 128 := h
      _ ≤ BASE58 ^ 22 := by norm_num [BASE58]
  simp only [encodeDigits, List.length_append, List.length_replicate,
    List.length_reverse]
  omega

theorem encodeDigits_digit_lt (num : Nat) : ∀ d ∈ encodeDigits num, d < BASE58 := by
  intro d hd
  simp only [encodeDigits, List.mem_append, List.mem_replicate,
    List.mem_reverse] at hd
  rcases hd with ⟨_, rfl⟩ | hd
  · decide
  · exact natToDigitsLE_digit_lt num d hd

theorem encodeDigits_val (num : Nat) : accVal 0 (encodeDigits num) = num := by
  simp only [encodeDigits]
  rw [accVal_append, accVal_replicate_zero, Nat.zero_mul, accVal_reverse_digits]

theorem encode_eq_ok (data : List Nat) (h16 : data.length = 16) :
    encode data = .ok ⟨(encodeDigits (bytesToNum data)).map alphaChar⟩ := by
  rw [encode, if_neg (by omega)]

/-! ## The alphabet and the reverse table -/

set_option maxRecDepth 4000 in
theorem revTable_cases : ∀ m : Fin 256,
    REVERSE_ALPHABET.getD m.1 255 = 255 ∨
      (REVERSE_ALPHABET.getD m.1 255 < 58 ∧
        (alphaChar (REVERSE_ALPHABET.getD m.1 255)).toNat = m.1) := by
  decide

theorem valid_alpha_fin : ∀ d : Fin 58,
    isValidChar (alphaChar d.1) = true ∧ charDigit (alphaChar d.1) = d.1 := by
  decide

theorem alphaChar_mem_fin : ∀ d : Fin 58, alphaChar d.1 ∈ ALPHABET.data := by
  decide

theorem charDigit_lt_of_valid {c : Char} (h : isValidChar c = true) :
    charDigit c < 58 := by
  rw [isValidChar, Bool.and_eq_true, decide_eq_true_iff, decide_eq_true_iff] at h
  rcases revTable_cases ⟨c.toNat, by omega⟩ with h255 | ⟨hlt, _⟩
  · exact absurd h255 h.2
  · exact hlt

theorem alphaChar_charDigit {c : Char} (h : isValidChar c = true) :
    alphaChar (charDigit c) = c := by
  rw [isValidChar, Bool.and_eq_true, decide_eq_true_iff, decide_eq_true_iff] at h
  rcases revTable_cases ⟨c.toNat, by omega⟩ with h255 | ⟨_, heq⟩
  · exact absurd h255 h.2
  · exact Char.ext (UInt32.toNat.inj heq)

theorem isValidChar_alphaChar {d : Nat} (hd : d < 58) :
    isValidChar (alphaChar d) = true :=
  (valid_alpha_fin ⟨d, hd⟩).1

theorem charDigit_alphaChar {d : Nat} (hd : d < 58) :
    charDigit (alphaChar d) = d :=
  (valid_alpha_fin ⟨d, hd⟩).2

/-! ## The decode loop -/

theorem le_accVal (a : Nat) (ds : List Nat) : a ≤ accVal a ds := by
  rw [accVal_eq]
  calc a = a * 1 := (Nat.mul_one a).symm
    _ ≤ a * BASE58 ^ ds.length :=
        Nat.mul_le_mul_left a (Nat.one_le_pow _ _ (by decide))
    _ ≤ _ := Nat.le_add_right _ _

theorem decodeLoop_cons_valid {c : Char} (h : isValidChar c = true)
    (rest : List Char) (i num : Nat) :
    decodeLoop (c :: rest) i num =
      if MAX_UUID < num * BASE58 + charDigit c then .error .overflow
      else decodeLoop rest (i + 1) (num * BASE58 + charDigit c) := by
  rw [isValidChar, Bool.and_eq_true, decide_eq_true_iff, decide_eq_true_iff] at h
  simp only [decodeLoop, charDigit]
  rw [if_neg (by omega), if_neg h.2]

theorem decodeLoop_cons_invalid {c : Char} (h : isValidChar c = false)
    (rest : List Char) (i num : Nat) :
    decodeLoop (c :: rest) i num = .error (.invalidCharacter i c) := by
  simp only [isValidChar, Bool.and_eq_false_iff, decide_eq_false_iff_not,
    Decidable.not_not] at h
  by_cases h255 : c.toNat > 255
  · simp only [decodeLoop]
    rw [if_pos h255]
  · have hsent : REVERSE_ALPHABET.getD c.toNat 255 = 255 := by
      rcases h with h | h
      · omega
      · exact h
    simp only [decodeLoop]
    rw [if_neg h255, if_pos hsent]

theorem decodeLoop_ok (cs : List Char) : ∀ i acc,
    (∀ c ∈ cs, isValidChar c = true) →
    accVal acc (cs.map charDigit) ≤ MAX_UUID →
    decodeLoop cs i acc = .ok (accVal acc (cs.map charDigit)) := by
  induction cs with
  | nil =>
    intro i acc _ _
    rfl
  | cons c cs ih =>
    intro i acc hv hle
    have hc := hv c (List.mem_cons_self _ _)
    rw [decodeLoop_cons_valid hc]
    rw [List.map_cons, accVal_cons] at hle ⊢
    have hmono := le_accVal (acc * BASE58 + charDigit c) (cs.map charDigit)
    rw [if_neg (by omega)]
    exact ih (i + 1) _ (fun x hx => hv x (List.mem_cons_of_mem _ hx)) hle

theorem decodeLoop_overflow (cs : List Char) : ∀ i acc,
    (∀ c ∈ cs, isValidChar c = true) →
    acc ≤ MAX_UUID →
    MAX_UUID < accVal acc (cs.map charDigit) →
    decodeLoop cs i acc = .error .overflow := by
  induction cs with
  | nil =>
    intro i acc _ hle hgt
    rw [List.map_nil, accVal_nil] at hgt
    omega
  | cons c cs ih =>
    intro i acc hv hle hgt
    rw [decodeLoop_cons_valid (hv c (List.mem_cons_self _ _))]
    by_cases hover : MAX_UUID < acc * BASE58 + charDigit c
    · rw [if_pos hover]
    · rw [if_neg hover]
      rw [List.map_cons, accVal_cons] at hgt
      exact ih (i + 1) _ (fun x hx => hv x (List.mem_cons_of_mem _ hx))
        (by omega) hgt

theorem decodeLoop_append_ok {xs : List Char} : ∀ {i acc v},
    decodeLoop xs i acc = .ok v →
    ∀ ys, decodeLoop (xs ++ ys) i acc = decodeLoop ys (i + xs.length) v := by
  induction xs with
  | nil =>
    intro i acc v h ys
    cases h
    simp [decodeLoop]
  | cons c xs ih =>
    intro i acc v h ys
    by_cases hval : isValidChar c = true
    · rw [decodeLoop_cons_valid hval] at h
      by_cases hover : MAX_UUID < acc * BASE58 + charDigit c
      · rw [if_pos hover] at h
        cases h
      · rw [if_neg hover] at h
        rw [List.cons_append, decodeLoop_cons_valid hval, if_neg hover, ih h ys,
          List.length_cons, show i + 1 + xs.length = i + (xs.length + 1) by omega]
    · rw [decodeLoop_cons_invalid (Bool.eq_false_iff.mpr hval) _ _ _] at h
      cases h

theorem decodeLoop_short_ok (cs : List Char)
    (h : ∀ c ∈ cs, isValidChar c = true) (hlen : cs.length ≤ 21) :
    decodeLoop cs 0 0 = .ok (accVal 0 (cs.map charDigit)) ∧
      accVal 0 (cs.map charDigit) ≤ MAX_UUID := by
  have hd : ∀ d ∈ cs.map charDigit, d < BASE58 := by
    intro d hd
    obtain ⟨c, hc, rfl⟩ := List.mem_map.mp hd
    exact charDigit_lt_of_valid (h c hc)
  have hv := accVal_lt (cs.map charDigit) hd
  have hbound : accVal 0 (cs.map charDigit) ≤ MAX_UUID := by
    have hle : BASE58 ^ (cs.map charDigit).length ≤ BASE58 ^ 21 :=
      Nat.pow_le_pow_right (by decide) (by simpa using hlen)
    have h58 : BASE58 ^ 21 ≤ MAX_UUID + 1 := by norm_num [BASE58, MAX_UUID]
    omega
  exact ⟨decodeLoop_ok cs 0 0 h hbound, hbound⟩

theorem decode_valid_eq (s : String) (h22 : s.data.length = 22)
    (hv : ∀ c ∈ s.data, isValidChar c = true) :
    decode s =
      if MAX_UUID < accVal 0 (s.data.map charDigit) then .error .overflow
      else .ok (integerToBytes (accVal 0 (s.data.map charDigit))) := by
  rw [decode, if_neg (by omega), if_neg (by omega)]
  by_cases hover : MAX_UUID < accVal 0 (s.data.map charDigit)
  · rw [decodeLoop_overflow s.data 0 0 hv (Nat.zero_le _) hover, if_pos hover]
  · rw [decodeLoop_ok s.data 0 0 hv (by omega), if_neg hover]

/-! ## Test-vector claims -/

/-- C6: the all-zero 16-byte buffer encodes to 22 copies of `'1'` (the
alphabet's index-0 symbol), and decoding 22 copies of `'1'` succeeds
with the all-zero buffer. -/
theorem zero_vector_round_trip :
    encode (List.replicate 16 0) = .ok "1111111111111111111111" ∧
      decode "1111111111111111111111" = .ok (List.replicate 16 0) := by
  constructor <;> rfl

/-- C7: the 16-byte buffer of `0xFF` bytes (value `2^128 - 1`) encodes
to exactly `"YcVfxkQb6JRzqk5kF2tNLv"`. -/
theorem max_vector_encode :
    encode (List.replicate 16 255) = .ok "YcVfxkQb6JRzqk5kF2tNLv" := rfl

/-- C8: decoding 22 copies of `'z'` (digit value 57) fails with
`overflow` — not with any other failure kind and not with success. -/
theorem all_z_overflows :
    decode "zzzzzzzzzzzzzzzzzzzzzz" = .error .overflow := rfl

end B58

namespace B58

/-! ## Encode contract (C2) -/

/-- C2: `encode` fails — with `invalidLength` carrying the byte
count — exactly when the input is not 16 bytes, and on every 16-byte
input it returns a string of exactly 22 characters all of which belong
to the 58-symbol alphabet. -/
theorem encode_contract (data : List Nat) (hb : ∀ b ∈ data, b < 256) :
    ((encode data = .error (.invalidLength data.length)) ↔ data.length ≠ 16) ∧
      (data.length = 16 →
        ∃ s, encode data = .ok s ∧ s.data.length = 22 ∧
          ∀ c ∈ s.data, c ∈ ALPHABET.data) := by
  constructor
  · constructor
    · intro h hlen
      rw [encode_eq_ok data hlen] at h
      cases h
    · intro hlen
      rw [encode, if_pos hlen]
  · intro hlen
    refine ⟨_, encode_eq_ok data hlen, ?_, ?_⟩
    · show ((encodeDigits (bytesToNum data)).map alphaChar).length = 22
      rw [List.length_map, encodeDigits_length _ (bytesToNum_lt data hlen hb)]
    · intro c hc
      obtain ⟨d, hd, rfl⟩ :=
        List.mem_map.mp (show c ∈ (encodeDigits (bytesToNum data)).map alphaChar from hc)
      exact alphaChar_mem_fin ⟨d, encodeDigits_digit_lt (bytesToNum data) d hd⟩

theorem encode_contract_witness :
    (∀ b ∈ List.replicate 16 7, b < 256) ∧
      (((encode (List.replicate 16 7)
            = .error (.invalidLength (List.replicate 16 7).length)) ↔
          (List.replicate 16 7).length ≠ 16) ∧
        ((List.replicate 16 7).length = 16 →
          ∃ s, encode (List.replicate 16 7) = .ok s ∧ s.data.length = 22 ∧
            ∀ c ∈ s.data, c ∈ ALPHABET.data)) :=
  ⟨by decide, encode_contract (List.replicate 16 7) (by decide)⟩

/-! ## Decode fail-fast length checks (C5) -/

/-- C5: a string whose length is not 22 is rejected before any
character is looked at — with `invalidFormat` when it is empty and
with `invalidLength` (carrying the length) otherwise, regardless of
what characters it contains. -/
theorem decode_length_fail_fast (s : String) (h : s.data.length ≠ 22) :
    decode s = .error
      (if s.data.length = 0 then .invalidFormat
        else .invalidLength s.data.length) := by
  by_cases h0 : s.data.length = 0
  · rw [decode, if_pos h0, if_pos h0]
  · rw [decode, if_neg h0, if_pos h, if_neg h0]

theorem decode_length_fail_fast_witness :
    "0O!".data.length ≠ 22 ∧
      decode "0O!" = .error
        (if "0O!".data.length = 0 then .invalidFormat
          else .invalidLength "0O!".data.length) :=
  ⟨by decide, decode_length_fail_fast "0O!" (by decide)⟩

/-! ## Invalid-character rejection (C4) -/

/-- C4: a 22-character input whose first out-of-alphabet character
(`0`, `O`, `I`, `l`, arbitrary Unicode, any code ≥ 256, …) sits at
position `j` fails with `invalidCharacter` reporting position `j` and
that character; it is never coerced to an alphabet symbol. -/
theorem decode_invalid_character (s : String) (h22 : s.data.length = 22)
    (j : Nat) (hj : j < 22) (hbad : isValidChar (s.data.getD j ' ') = false)
    (hpre : ∀ c ∈ s.data.take j, isValidChar c = true) :
    decode s = .error (.invalidCharacter j (s.data.getD j ' ')) := by
  have hjlen : j < s.data.length := by omega
  have hgetD : s.data.getD j ' ' = s.data[j] := by
    rw [List.getD_eq_getElem?_getD, List.getElem?_eq_getElem hjlen, Option.getD_some]
  have htake : (s.data.take j).length = j := by
    simp only [List.length_take]
    omega
  obtain ⟨hok, -⟩ := decodeLoop_short_ok (s.data.take j) hpre (by omega)
  have hdecomp : s.data = s.data.take j ++ s.data[j] :: s.data.drop (j + 1) := by
    conv_lhs => rw [← List.take_append_drop j s.data]
    rw [List.drop_eq_getElem_cons hjlen]
  have hloop : decodeLoop s.data 0 0 = .error (.invalidCharacter j s.data[j]) := by
    conv_lhs => rw [hdecomp]
    rw [decodeLoop_append_ok hok, htake, Nat.zero_add,
      decodeLoop_cons_invalid (by rwa [hgetD] at hbad)]
  rw [decode, if_neg (by omega), if_neg (by omega), hloop, hgetD]

theorem decode_invalid_character_witness :
    "111l111111111111111111".data.length = 22 ∧ 3 < 22 ∧
      isValidChar ("111l111111111111111111".data.getD 3 ' ') = false ∧
      (∀ c ∈ "111l111111111111111111".data.take 3, isValidChar c = true) ∧
      decode "111l111111111111111111"
        = .error (.invalidCharacter 3 ("111l111111111111111111".data.getD 3 ' ')) :=
  ⟨by decide, by decide, by decide, by decide,
    decode_invalid_character "111l111111111111111111" (by decide) 3 (by decide)
      (by decide) (by decide)⟩

/-! ## Overflow timing (C3) -/

theorem decodeLoop_take_ne_overflow {cs : List Char}
    (hv : ∀ c ∈ cs, isValidChar c = true) {k : Nat} (hk : k ≤ 21) :
    decodeLoop (cs.take k) 0 0 ≠ .error .overflow := by
  have hval : ∀ c ∈ cs.take k, isValidChar c = true := fun c hc =>
    hv c (List.mem_of_mem_take hc)
  have hlen : (cs.take k).length ≤ 21 := by
    simp only [List.length_take]
    omega
  obtain ⟨hok, -⟩ := decodeLoop_short_ok _ hval hlen
  rw [hok]
  intro h
  cases h

/-- C3 (counterexample): the claim asserts that for some 22-character
input made of valid alphabet symbols the overflow failure triggers
before all 22 characters have been consumed — that is, already on a
proper prefix of the input.  No such input exists: every at-most-21
step prefix of valid symbols accumulates to less than `58^21 < 2^128`,
so the overflow check can never fire early. -/
theorem no_early_overflow_refutes_spec :
    ¬ ∃ cs : List Char, cs.length = 22 ∧ (∀ c ∈ cs, isValidChar c = true) ∧
      ∃ k, k < 22 ∧ decodeLoop (cs.take k) 0 0 = .error .overflow := by
  rintro ⟨cs, -, hv, k, hk, herr⟩
  exact decodeLoop_take_ne_overflow hv (by omega) herr

/-- C3 (amended): during `decode` the accumulator is checked against
`2^128 - 1` after every multiply-add step, and a 22-character input of
valid symbols fails with `overflow` exactly when its accumulated value
exceeds that ceiling; but the failure can only trigger at the 22nd
(final) step — no proper prefix of valid symbols ever overflows. -/
theorem overflow_only_at_final_step (s : String) (h22 : s.data.length = 22)
    (hv : ∀ c ∈ s.data, isValidChar c = true) :
    (decode s = .error .overflow ↔
        MAX_UUID < accVal 0 (s.data.map charDigit)) ∧
      ∀ k, k < 22 → decodeLoop (s.data.take k) 0 0 ≠ .error .overflow := by
  constructor
  · rw [decode_valid_eq s h22 hv]
    by_cases hover : MAX_UUID < accVal 0 (s.data.map charDigit)
    · rw [if_pos hover]
      exact iff_of_true rfl hover
    · rw [if_neg hover]
      constructor
      · intro h
        cases h
      · intro h
        exact absurd h hover
  · intro k hk
    exact decodeLoop_take_ne_overflow hv (by omega)

theorem overflow_only_at_final_step_witness :
    "zzzzzzzzzzzzzzzzzzzzzz".data.length = 22 ∧
      (∀ c ∈ "zzzzzzzzzzzzzzzzzzzzzz".data, isValidChar c = true) ∧
      ((decode "zzzzzzzzzzzzzzzzzzzzzz" = .error .overflow ↔
          MAX_UUID < accVal 0 ("zzzzzzzzzzzzzzzzzzzzzz".data.map charDigit)) ∧
        ∀ k, k < 22 →
          decodeLoop ("zzzzzzzzzzzzzzzzzzzzzz".data.take k) 0 0
            ≠ .error .overflow) :=
  ⟨by decide, by decide,
    overflow_only_at_final_step "zzzzzzzzzzzzzzzzzzzzzz" (by decide) (by decide)⟩

end B58

namespace B58

/-! ## Inversion of a successful decode loop -/

theorem decodeLoop_ok_inv {cs : List Char} : ∀ {i acc v},
    decodeLoop cs i acc = .ok v → acc ≤ MAX_UUID →
    (∀ c ∈ cs, isValidChar c = true) ∧
      v = accVal acc (cs.map charDigit) ∧ v ≤ MAX_UUID := by
  induction cs with
  | nil =>
    intro i acc v h hle
    cases h
    exact ⟨by simp, rfl, hle⟩
  | cons c cs ih =>
    intro i acc v h hle
    by_cases hval : isValidChar c = true
    · rw [decodeLoop_cons_valid hval] at h
      by_cases hover : MAX_UUID < acc * BASE58 + charDigit c
      · rw [if_pos hover] at h
        cases h
      · rw [if_neg hover] at h
        obtain ⟨h1, h2, h3⟩ := ih h (by omega)
        refine ⟨?_, ?_, h3⟩
        · intro x hx
          rcases List.mem_cons.mp hx with rfl | hx
          · exact hval
          · exact h1 x hx
        · rw [List.map_cons, accVal_cons]
          exact h2
    · rw [decodeLoop_cons_invalid (Bool.eq_false_iff.mpr hval)] at h
      cases h

/-! ## Uniqueness of the fixed-width representation -/

theorem accVal_inj : ∀ xs ys : List Nat, xs.length = ys.length →
    (∀ d ∈ xs, d < BASE58) → (∀ d ∈ ys, d < BASE58) →
    accVal 0 xs = accVal 0 ys → xs = ys := by
  intro xs
  induction xs with
  | nil =>
    intro ys hlen _ _ _
    cases ys with
    | nil => rfl
    | cons y ys => simp at hlen
  | cons x xs ih =>
    intro ys hlen hx hy hval
    cases ys with
    | nil => simp at hlen
    | cons y ys =>
      have hlen' : xs.length = ys.length := by simpa using hlen
      have hx' := fun d hd => hx d (List.mem_cons_of_mem _ hd)
      have hy' := fun d hd => hy d (List.mem_cons_of_mem _ hd)
      rw [accVal_cons, accVal_cons, accVal_eq (0 * BASE58 + x) xs,
        accVal_eq (0 * BASE58 + y) ys] at hval
      simp only [Nat.zero_mul, Nat.zero_add] at hval
      have hvx := accVal_lt xs hx'
      have hvy := accVal_lt ys hy'
      rw [hlen'] at hval hvx
      have hPpos : 0 < BASE58 ^ ys.length := pow_pos (by decide) _
      have hdx : (x * BASE58 ^ ys.length + accVal 0 xs) / BASE58 ^ ys.length = x := by
        rw [Nat.mul_comm x _, Nat.mul_add_div hPpos, Nat.div_eq_of_lt hvx]
        omega
      have hdy : (y * BASE58 ^ ys.length + accVal 0 ys) / BASE58 ^ ys.length = y := by
        rw [Nat.mul_comm y _, Nat.mul_add_div hPpos, Nat.div_eq_of_lt hvy]
        omega
      have hxy : x = y := by rw [← hdx, ← hdy, hval]
      subst hxy
      have htails : accVal 0 xs = accVal 0 ys := Nat.add_left_cancel hval
      rw [ih ys hlen' hx' hy' htails]

/-! ## The alphabet is strictly increasing -/

set_option maxRecDepth 4000 in
theorem alphaChar_lt_iff : ∀ i j : Fin 58,
    (i.1 < j.1 ↔ alphaChar i.1 < alphaChar j.1) := by
  decide

theorem lex_cons_inv {a b : Char} {l m : List Char}
    (h : List.Lex (· < ·) (a :: l) (b :: m)) :
    a < b ∨ (a = b ∧ List.Lex (· < ·) l m) := by
  cases h with
  | cons h3 => exact Or.inr ⟨rfl, h3⟩
  | rel hlt => exact Or.inl hlt

theorem digits_lt_iff_lex : ∀ xs ys : List Nat, xs.length = ys.length →
    (∀ d ∈ xs, d < BASE58) → (∀ d ∈ ys, d < BASE58) →
    (accVal 0 xs < accVal 0 ys ↔
      List.Lex (· < ·) (xs.map alphaChar) (ys.map alphaChar)) := by
  intro xs
  induction xs with
  | nil =>
    intro ys hlen _ _
    cases ys with
    | nil =>
      constructor
      · intro h
        exact absurd h (lt_irrefl _)
      · intro h
        cases h
    | cons y ys => simp at hlen
  | cons x xs ih =>
    intro ys hlen hx hy
    cases ys with
    | nil => simp at hlen
    | cons y ys =>
      have hlen' : xs.length = ys.length := by simpa using hlen
      have hx' := fun d hd => hx d (List.mem_cons_of_mem _ hd)
      have hy' := fun d hd => hy d (List.mem_cons_of_mem _ hd)
      have hxx : x < BASE58 := hx x (List.mem_cons_self _ _)
      have hyy : y < BASE58 := hy y (List.mem_cons_self _ _)
      rw [List.map_cons, List.map_cons, accVal_cons, accVal_cons,
        accVal_eq (0 * BASE58 + x) xs, accVal_eq (0 * BASE58 + y) ys]
      simp only [Nat.zero_mul, Nat.zero_add]
      have hvx := accVal_lt xs hx'
      have hvy := accVal_lt ys hy'
      rw [hlen'] at hvx ⊢
      rcases Nat.lt_trichotomy x y with hxy | hxy | hxy
      · constructor
        · intro _
          exact List.Lex.rel ((alphaChar_lt_iff ⟨x, hxx⟩ ⟨y, hyy⟩).mp hxy)
        · intro _
          calc x * BASE58 ^ ys.length + accVal 0 xs
              < x * BASE58 ^ ys.length + BASE58 ^ ys.length := by omega
            _ = (x + 1) * BASE58 ^ ys.length := by ring
            _ ≤ y * BASE58 ^ ys.length := Nat.mul_le_mul_right _ (by omega)
            _ ≤ y * BASE58 ^ ys.length + accVal 0 ys := Nat.le_add_right _ _
      · subst hxy
        have hirr : ¬ alphaChar x < alphaChar x := fun h =>
          absurd ((alphaChar_lt_iff ⟨x, hxx⟩ ⟨x, hxx⟩).mpr h) (lt_irrefl x)
        constructor
        · intro h
          have htail : accVal 0 xs < accVal 0 ys := by omega
          exact List.Lex.cons ((ih ys hlen' hx' hy').mp htail)
        · intro h
          rcases lex_cons_inv h with hlt | ⟨-, h3⟩
          · exact absurd hlt hirr
          · have := (ih ys hlen' hx' hy').mpr h3
            omega
      · have hgt : y * BASE58 ^ ys.length + accVal 0 ys
            < x * BASE58 ^ ys.length + accVal 0 xs := by
          calc y * BASE58 ^ ys.length + accVal 0 ys
              < y * BASE58 ^ ys.length + BASE58 ^ ys.length := by omega
            _ = (y + 1) * BASE58 ^ ys.length := by ring
            _ ≤ x * BASE58 ^ ys.length := Nat.mul_le_mul_right _ (by omega)
            _ ≤ x * BASE58 ^ ys.length + accVal 0 xs := Nat.le_add_right _ _
        constructor
        · intro h
          exact absurd h (Nat.lt_asymm hgt)
        · intro h
          rcases lex_cons_inv h with hlt | ⟨heq, -⟩
          · exact absurd ((alphaChar_lt_iff ⟨x, hxx⟩ ⟨y, hyy⟩).mpr hlt)
              (Nat.lt_asymm hxy)
          · have h1 := charDigit_alphaChar hxx
            have h2 := charDigit_alphaChar hyy
            rw [heq, h2] at h1
            omega

end B58

namespace B58

/-! ## Round trip (C1) -/

/-- C1: for every 128-bit value `v`, decoding the encoding of its
16-byte big-endian buffer succeeds and returns that same buffer. -/
theorem round_trip_encode_decode (v : Nat) (hv : v ≤ MAX_UUID) :
    ∃ s, encode (integerToBytes v) = .ok s ∧
      decode s = .ok (integerToBytes v) := by
  have hv128 : v < 2 ^ 128 := by
    have h1 : MAX_UUID + 1 = 2 ^ 128 := by norm_num [MAX_UUID]
    omega
  have hlen : (integerToBytes v).length = 16 := intToBytesAux_length 16 v
  have hnum : bytesToNum (integerToBytes v) = v := bytesToNum_integerToBytes v hv128
  refine ⟨_, encode_eq_ok _ hlen, ?_⟩
  rw [hnum]
  have hdlt := encodeDigits_digit_lt v
  have hlen22 : (encodeDigits v).length = 22 := encodeDigits_length v hv128
  have hdata : (String.mk ((encodeDigits v).map alphaChar)).data
      = (encodeDigits v).map alphaChar := rfl
  have hvalid : ∀ c ∈ (encodeDigits v).map alphaChar, isValidChar c = true := by
    intro c hc
    obtain ⟨d, hd, rfl⟩ := List.mem_map.mp hc
    exact isValidChar_alphaChar (hdlt d hd)
  have hmapmap : ((encodeDigits v).map alphaChar).map charDigit = encodeDigits v := by
    rw [List.map_map]
    have h : ∀ d ∈ encodeDigits v, (charDigit ∘ alphaChar) d = id d := fun d hd =>
      charDigit_alphaChar (hdlt d hd)
    rw [List.map_congr_left h, List.map_id]
  rw [decode_valid_eq _ (by rw [hdata, List.length_map, hlen22])
    (by rw [hdata]; exact hvalid)]
  rw [hdata, hmapmap, encodeDigits_val, if_neg (by omega)]

theorem round_trip_encode_decode_witness :
    424242 ≤ MAX_UUID ∧
      ∃ s, encode (integerToBytes 424242) = .ok s ∧
        decode s = .ok (integerToBytes 424242) :=
  ⟨by decide, round_trip_encode_decode 424242 (by decide)⟩

/-! ## Inverse round trip (C9) -/

/-- C9: whenever `decode` succeeds on a string, re-encoding its result
reproduces that string exactly — accepted strings are in bijection
with 16-byte buffers. -/
theorem decode_encode_inverse (s : String) (bytes : List Nat)
    (h : decode s = .ok bytes) : encode bytes = .ok s := by
  rw [decode] at h
  by_cases h0 : s.data.length = 0
  · rw [if_pos h0] at h
    cases h
  · rw [if_neg h0] at h
    by_cases h22 : s.data.length ≠ 22
    · rw [if_pos h22] at h
      cases h
    · rw [if_neg h22] at h
      push_neg at h22
      rcases hres : decodeLoop s.data 0 0 with e | num
      · rw [hres] at h
        cases h
      · rw [hres] at h
        have hbytes : integerToBytes num = bytes := by
          injection h
        subst hbytes
        obtain ⟨hvalid, hnum, hle⟩ := decodeLoop_ok_inv hres (Nat.zero_le _)
        have hnum128 : num < 2 ^ 128 := by
          have h1 : MAX_UUID + 1 = 2 ^ 128 := by norm_num [MAX_UUID]
          omega
        have hlen16 : (integerToBytes num).length = 16 := intToBytesAux_length 16 num
        rw [encode_eq_ok _ hlen16, bytesToNum_integerToBytes num hnum128]
        have hdigits : encodeDigits num = s.data.map charDigit := by
          apply accVal_inj
          · rw [encodeDigits_length num hnum128, List.length_map, h22]
          · exact encodeDigits_digit_lt num
          · intro d hd
            obtain ⟨c, hc, rfl⟩ := List.mem_map.mp hd
            exact charDigit_lt_of_valid (hvalid c hc)
          · rw [encodeDigits_val, ← hnum]
        rw [hdigits]
        have hback : (s.data.map charDigit).map alphaChar = s.data := by
          rw [List.map_map]
          have hcong : ∀ c ∈ s.data, (alphaChar ∘ charDigit) c = id c := fun c hc =>
            alphaChar_charDigit (hvalid c hc)
          rw [List.map_congr_left hcong, List.map_id]
        rw [hback]

theorem decode_encode_inverse_witness :
    decode "1111111111111111111112" = .ok (integerToBytes 1) ∧
      encode (integerToBytes 1) = .ok "1111111111111111111112" :=
  ⟨rfl, decode_encode_inverse "1111111111111111111112" (integerToBytes 1) rfl⟩

/-! ## Order preservation (C10) -/

/-- C10: `encode` is strictly monotone — the big-endian value of one
16-byte buffer is smaller than another's exactly when its encoding
precedes the other's in lexicographic character order. -/
theorem encode_strict_mono (a b : List Nat) (ha16 : a.length = 16)
    (hb16 : b.length = 16) (ha : ∀ x ∈ a, x < 256) (hb : ∀ x ∈ b, x < 256) :
    ∃ sa sb, encode a = .ok sa ∧ encode b = .ok sb ∧
      (bytesToNum a < bytesToNum b ↔ sa < sb) := by
  refine ⟨_, _, encode_eq_ok a ha16, encode_eq_ok b hb16, ?_⟩
  have hla := encodeDigits_length _ (bytesToNum_lt a ha16 ha)
  have hlb := encodeDigits_length _ (bytesToNum_lt b hb16 hb)
  have hiff := digits_lt_iff_lex (encodeDigits (bytesToNum a))
    (encodeDigits (bytesToNum b)) (by rw [hla, hlb])
    (encodeDigits_digit_lt _) (encodeDigits_digit_lt _)
  rw [encodeDigits_val, encodeDigits_val] at hiff
  rw [String.lt_iff_toList_lt]
  exact hiff

theorem encode_strict_mono_witness :
    (List.replicate 16 0).length = 16 ∧
      (List.replicate 15 0 ++ [1]).length = 16 ∧
      (∀ x ∈ List.replicate 16 0, x < 256) ∧
      (∀ x ∈ List.replicate 15 0 ++ [1], x < 256) ∧
      ∃ sa sb, encode (List.replicate 16 0) = .ok sa ∧
        encode (List.replicate 15 0 ++ [1]) = .ok sb ∧
        (bytesToNum (List.replicate 16 0)
            < bytesToNum (List.replicate 15 0 ++ [1]) ↔ sa < sb) :=
  ⟨by decide, by decide, by decide, by decide,
    encode_strict_mono _ _ (by decide) (by decide) (by decide) (by decide)⟩

end B58
